import Mathlib

/-!
# Verification of the etcd-gateway key-space aggregation core

Shallow embedding of `internal/api` (the Tree Builder `insertNode`, the
listing handler `FetchKeysHandler` and the point-lookup handler
`FetchValueForKeyHandler`) together with proofs of the specified
properties of the key-space aggregation algorithm.
-/

namespace EtcdGateway

/-- The `TreeNode` struct: `ID`, `Name`, `Value` (Go zero value `""` means
"no value", matching the `omitempty` serialization) and the ordered
`Children` slice. -/
inductive TreeNode : Type where
  | mk : String → String → String → List TreeNode → TreeNode

namespace TreeNode

def id : TreeNode → String
  | .mk i _ _ _ => i

def name : TreeNode → String
  | .mk _ n _ _ => n

def value : TreeNode → String
  | .mk _ _ v _ => v

def children : TreeNode → List TreeNode
  | .mk _ _ _ c => c

@[simp] theorem id_mk (i n v : String) (cs : List TreeNode) : (TreeNode.mk i n v cs).id = i := rfl
@[simp] theorem name_mk (i n v : String) (cs : List TreeNode) : (TreeNode.mk i n v cs).name = n := rfl
@[simp] theorem value_mk (i n v : String) (cs : List TreeNode) : (TreeNode.mk i n v cs).value = v := rfl
@[simp] theorem children_mk (i n v : String) (cs : List TreeNode) : (TreeNode.mk i n v cs).children = cs := rfl

end TreeNode

/-- Go `strings.TrimSuffix(s, "/")`: drop one trailing `/` if present. -/
def trimTrailingSlash (s : String) : String :=
  if s.data.getLast? = some '/' then String.mk s.data.dropLast else s

/-- Go `strings.TrimPrefix(s, "/")`: drop one leading `/` if present. -/
def trimLeadingSlash (s : String) : String :=
  match s.data with
  | '/' :: rest => String.mk rest
  | _ => s

/-- Replace the first child whose `Name` equals `part` by `g` applied to it,
mirroring the in-place mutation of the first matching child found by the
linear scan (`for _, child := range root.Children … break`). -/
def replaceFirst (part : String) (g : TreeNode → TreeNode) : List TreeNode → List TreeNode
  | [] => []
  | c :: cs => if c.name = part then g c :: cs else c :: replaceFirst part g cs

/-- The Tree Builder `insertNode(root, parts, value)`.  The imperative loop
over `parts` (descend into the first child whose name matches the segment,
otherwise create a node with id `TrimSuffix(root.ID+"/"+part, "/")` and
append it; on the last segment write the value) becomes recursion on the
segment list. -/
def insertNode : TreeNode → List String → String → TreeNode
  | t, [], _ => t
  | .mk i n v0 cs, part :: rest, value =>
    if ∃ c ∈ cs, c.name = part then
      .mk i n v0 (replaceFirst part
        (fun c => match rest with
          | [] => .mk c.id c.name value c.children
          | _ :: _ => insertNode c rest value) cs)
    else
      .mk i n v0 (cs ++ [insertNode
        (.mk (trimTrailingSlash (i ++ "/" ++ part)) part
          (match rest with | [] => value | _ :: _ => "") []) rest value])

/-- The action `insertNode` applies to the matching child: write the value
on the last segment, otherwise keep descending.  Definitionally equal to
the anonymous function in `insertNode`'s found-branch. -/
def insertArm (rest : List String) (value : String) (c : TreeNode) : TreeNode :=
  match rest with
  | [] => .mk c.id c.name value c.children
  | _ :: _ => insertNode c rest value

/-- The value a freshly created node starts with: the insertion's value on
the last segment, unset otherwise. -/
def leafValue (rest : List String) (value : String) : String :=
  match rest with
  | [] => value
  | _ :: _ => ""

/-- The synthetic root `&TreeNode{Name: "root"}` (zero-valued `ID`, `Value`,
`Children`). -/
def rootNode : TreeNode := .mk "" "root" "" []

/-- Go `strings.Split(·, "/")` on the character list: split around every
occurrence of `'/'`; always returns at least one (possibly empty) piece. -/
def splitSlashChars : List Char → List (List Char)
  | [] => [[]]
  | c :: cs =>
    match splitSlashChars cs with
    | [] => if c = '/' then [[], []] else [[c]]
    | a :: as => if c = '/' then [] :: a :: as else (c :: a) :: as

/-- Go `strings.Split(s, "/")`. -/
def splitSlash (s : String) : List String :=
  (splitSlashChars s.data).map String.mk

/-- `strings.Split(string(kv.Key), "/")[1:]`: the key split on `/` with the
piece before the first separator dropped. -/
def splitKey (k : String) : List String :=
  (splitSlash k).drop 1

/-- The accumulation loop of `FetchKeysHandler`: fold every `(key, value)`
pair from the store into a single fresh root via `insertNode`. -/
def buildTree (kvs : List (String × String)) : TreeNode :=
  kvs.foldl (fun r kv => insertNode r (splitKey kv.1) kv.2) rootNode

/-- Building from explicit segment lists (the Tree Builder contract of the
spec: a sequence of `(segments, value)` insertions against one root). -/
def buildSegs (l : List (List String × String)) : TreeNode :=
  l.foldl (fun r sv => insertNode r sv.1 sv.2) rootNode

/-- The etcd client's answer to one `Get`: either a transport/server error
or a (sorted) list of key-value pairs. -/
inductive StoreResult : Type where
  | err : StoreResult
  | ok : List (String × String) → StoreResult
deriving DecidableEq

/-- Outcome of the listing endpoint: HTTP 500 or the root's children. -/
inductive KeysResponse : Type where
  | serverError : KeysResponse
  | ok : List TreeNode → KeysResponse

/-- `FetchKeysHandler`, given the store's response to its single prefix
`Get`: map a store error to HTTP 500, otherwise build the tree and return
`root.Children`. -/
def FetchKeysHandler (resp : StoreResult) : KeysResponse :=
  match resp with
  | .err => .serverError
  | .ok kvs => .ok (buildTree kvs).children

/-- Outcome of the point-lookup endpoint: 400, 500, 404 or the value. -/
inductive LookupOutcome : Type where
  | malformed : LookupOutcome
  | storeError : LookupOutcome
  | notFound : LookupOutcome
  | ok : String → LookupOutcome
deriving DecidableEq

/-- `FetchValueForKeyHandler`, with the store abstracted as a function from
the queried key to its result.  Returns the HTTP outcome together with the
list of keys actually sent to the store (empty when the handler returns
before any store call).  Faithful to the source order: the `key == ""`
check happens BEFORE `strings.TrimPrefix(key, "/")`. -/
def FetchValueForKeyHandler (store : String → StoreResult) (key : String) :
    LookupOutcome × List String :=
  if key = "" then (.malformed, [])
  else
    let key2 := trimLeadingSlash key
    match store key2 with
    | .err => (.storeError, [key2])
    | .ok [] => (.notFound, [key2])
    | .ok (kv :: _) => (.ok kv.2, [key2])

/-! ## Observation functions used to state the specified properties -/

mutual
/-- Collect the `(id, value)` pair of every node that carries a value.  The
Go `Value` field is a plain string whose zero value `""` (omitted from the
serialization by `omitempty`) means "no value". -/
def flatten : TreeNode → List (String × String)
  | .mk i _ v cs => (if v = "" then [] else [(i, v)]) ++ flattenList cs
def flattenList : List TreeNode → List (String × String)
  | [] => []
  | c :: cs => flatten c ++ flattenList cs
end

mutual
/-- Every strict descendant of `t`, paired as `(path, id)` where `path` is
the list of `Name` segments from `t` down to the node. -/
def pathsIds : List String → TreeNode → List (List String × String)
  | p, .mk _ _ _ cs => pathsIdsList p cs
def pathsIdsList : List String → List TreeNode → List (List String × String)
  | _, [] => []
  | p, c :: cs => (p ++ [c.name], c.id) :: (pathsIds (p ++ [c.name]) c ++ pathsIdsList p cs)
end

/-- The ids of all nodes created below the synthetic root. -/
def allIds (t : TreeNode) : List String :=
  (pathsIds [] t).map (·.2)

/-- A tree with the values erased: what the claims call the "tree shape"
(every node's id, name and child list, but not its value). -/
inductive Shape : Type where
  | mk : String → String → List Shape → Shape

mutual
def shape : TreeNode → Shape
  | .mk i n _ cs => .mk i n (shapeList cs)
def shapeList : List TreeNode → List Shape
  | [] => []
  | c :: cs => shape c :: shapeList cs
end

/-- Segments joined by `/` with no leading or trailing separator. -/
def joinSegs : List String → String
  | [] => ""
  | [s] => s
  | s :: rest => s ++ "/" ++ joinSegs rest

/-- The id the built tree actually gives a node whose path from the root is
`p`: a leading `/` followed by the segments joined by `/` (the synthetic
root itself has id `""`). -/
def idOf : List String → String
  | [] => ""
  | p => "/" ++ joinSegs p

/-- A well-formed path segment: non-empty and free of the separator, as in
the spec's KeyPath data model. -/
def cleanSeg (s : String) : Prop := s ≠ "" ∧ '/' ∉ s.data

instance (s : String) : Decidable (cleanSeg s) := by
  unfold cleanSeg; infer_instance

/-- Every segment of the list is a well-formed KeyPath segment. -/
def cleanSegs (l : List String) : Prop := ∀ s ∈ l, cleanSeg s

instance (l : List String) : Decidable (cleanSegs l) := by
  unfold cleanSegs; infer_instance

/-- A raw store key consisting of a leading `/` followed by one or more
non-empty, separator-free segments joined by `/`. -/
def cleanKey (k : String) : Prop :=
  ∃ segs, segs ≠ [] ∧ cleanSegs segs ∧ k = idOf segs

/-- Well-formedness of a node sitting at path `p` below the synthetic
root: its id is the one determined by the path, its children carry
pairwise-distinct clean names, and each child is well-formed one level
deeper.  `insertNode` preserves this for clean insertions, and the fresh
root satisfies it at `p = []`. -/
inductive WF : List String → TreeNode → Prop where
  | mk : ∀ (p : List String) (i n v : String) (cs : List TreeNode),
      i = idOf p →
      (∀ c ∈ cs, cleanSeg c.name) →
      cs.Pairwise (fun a b => a.name ≠ b.name) →
      (∀ c ∈ cs, WF (p ++ [c.name]) c) →
      WF p (.mk i n v cs)

/-! ## Basic lemmas about the builder -/

@[simp] theorem insertNode_nil (t : TreeNode) (v : String) : insertNode t [] v = t := by
  cases t
  rfl

theorem insertNode_found (i n v0 part : String) (cs : List TreeNode)
    (rest : List String) (value : String) (h : ∃ c ∈ cs, c.name = part) :
    insertNode (.mk i n v0 cs) (part :: rest) value =
      .mk i n v0 (replaceFirst part (insertArm rest value) cs) := by
  unfold insertNode
  rw [if_pos h]
  rfl

theorem insertNode_notFound (i n v0 part : String) (cs : List TreeNode)
    (rest : List String) (value : String) (h : ¬ ∃ c ∈ cs, c.name = part) :
    insertNode (.mk i n v0 cs) (part :: rest) value =
      .mk i n v0 (cs ++ [insertNode
        (.mk (trimTrailingSlash (i ++ "/" ++ part)) part (leafValue rest value) [])
        rest value]) := by
  cases rest with
  | nil =>
    conv_lhs => unfold insertNode
    rw [if_neg h]
    rfl
  | cons r rs =>
    conv_lhs => unfold insertNode
    rw [if_neg h]
    rfl

@[simp] theorem insertNode_id (t : TreeNode) (parts : List String) (v : String) :
    (insertNode t parts v).id = t.id := by
  cases t with
  | mk i n v0 cs =>
    cases parts with
    | nil => rfl
    | cons part rest =>
      unfold insertNode
      split <;> rfl

@[simp] theorem insertNode_name (t : TreeNode) (parts : List String) (v : String) :
    (insertNode t parts v).name = t.name := by
  cases t with
  | mk i n v0 cs =>
    cases parts with
    | nil => rfl
    | cons part rest =>
      unfold insertNode
      split <;> rfl

@[simp] theorem insertNode_value (t : TreeNode) (parts : List String) (v : String) :
    (insertNode t parts v).value = t.value := by
  cases t with
  | mk i n v0 cs =>
    cases parts with
    | nil => rfl
    | cons part rest =>
      unfold insertNode
      split <;> rfl

theorem insertArm_name (rest : List String) (value : String) (c : TreeNode) :
    (insertArm rest value c).name = c.name := by
  cases rest with
  | nil => rfl
  | cons r rs => simp [insertArm, insertNode_name]

theorem replaceFirst_map_name (part : String) (g : TreeNode → TreeNode)
    (hg : ∀ c, (g c).name = c.name) :
    ∀ cs : List TreeNode,
      (replaceFirst part g cs).map TreeNode.name = cs.map TreeNode.name
  | [] => rfl
  | c :: cs => by
    by_cases h : c.name = part
    · simp [replaceFirst, h, hg]
    · simp [replaceFirst, h, replaceFirst_map_name part g hg cs]

theorem exists_name_iff_mem_map (cs : List TreeNode) (part : String) :
    (∃ c ∈ cs, c.name = part) ↔ part ∈ cs.map TreeNode.name := by
  simp [List.mem_map]

theorem replaceFirst_congr (part : String) (g g' : TreeNode → TreeNode)
    (h : ∀ c, g c = g' c) (cs : List TreeNode) :
    replaceFirst part g cs = replaceFirst part g' cs := by
  rw [funext h]

theorem replaceFirst_replaceFirst (part : String) (g1 g2 : TreeNode → TreeNode)
    (hg : ∀ c, (g1 c).name = c.name) :
    ∀ cs : List TreeNode,
      replaceFirst part g2 (replaceFirst part g1 cs)
        = replaceFirst part (fun c => g2 (g1 c)) cs
  | [] => rfl
  | c :: cs => by
    by_cases h : c.name = part
    · simp [replaceFirst, h, hg]
    · simp [replaceFirst, h, replaceFirst_replaceFirst part g1 g2 hg cs]

theorem replaceFirst_append_of_notFound (part : String) (g : TreeNode → TreeNode) :
    ∀ (cs ds : List TreeNode), (¬ ∃ c ∈ cs, c.name = part) →
      replaceFirst part g (cs ++ ds) = cs ++ replaceFirst part g ds
  | [], _, _ => rfl
  | c :: cs, ds, h => by
    have hc : ¬ c.name = part := fun hc => h ⟨c, List.mem_cons_self c cs, hc⟩
    have hcs : ¬ ∃ x ∈ cs, x.name = part := by
      rintro ⟨x, hx, hn⟩
      exact h ⟨x, List.mem_cons_of_mem c hx, hn⟩
    simp [replaceFirst, hc, replaceFirst_append_of_notFound part g cs ds hcs]

/-! ## Overwrite semantics of repeated insertion -/

theorem insertNode_overwrite (parts : List String) :
    ∀ (t : TreeNode) (v1 v2 : String),
      insertNode (insertNode t parts v1) parts v2 = insertNode t parts v2 := by
  induction parts with
  | nil =>
    intro t v1 v2
    simp [insertNode_nil]
  | cons part rest ih =>
    intro t v1 v2
    cases t with
    | mk i n v0 cs =>
      by_cases h : ∃ c ∈ cs, c.name = part
      · have hnames : ∀ c, (insertArm rest v1 c).name = c.name := insertArm_name rest v1
        have h2 : ∃ c ∈ replaceFirst part (insertArm rest v1) cs, c.name = part := by
          rw [exists_name_iff_mem_map, replaceFirst_map_name part _ hnames,
            ← exists_name_iff_mem_map]
          exact h
        rw [insertNode_found i n v0 part cs rest v1 h,
          insertNode_found i n v0 part _ rest v2 h2,
          insertNode_found i n v0 part cs rest v2 h]
        congr 1
        rw [replaceFirst_replaceFirst part _ _ hnames]
        apply replaceFirst_congr
        intro c
        cases rest with
        | nil => rfl
        | cons r rs =>
          simp only [insertArm]
          exact ih c v1 v2
      · rw [insertNode_notFound i n v0 part cs rest v1 h]
        have harmname :
            (insertNode (.mk (trimTrailingSlash (i ++ "/" ++ part)) part (leafValue rest v1) [])
              rest v1).name = part := by
          rw [insertNode_name]
          rfl
        have hfound : ∃ c ∈ cs ++ [insertNode
            (.mk (trimTrailingSlash (i ++ "/" ++ part)) part (leafValue rest v1) [])
            rest v1], c.name = part := by
          refine ⟨_, List.mem_append_right cs (List.mem_singleton.mpr rfl), harmname⟩
        rw [insertNode_found i n v0 part _ rest v2 hfound,
          insertNode_notFound i n v0 part cs rest v2 h]
        congr 1
        rw [replaceFirst_append_of_notFound part _ cs _ h]
        congr 1
        simp only [replaceFirst, harmname, if_pos]
        cases rest with
        | nil => rfl
        | cons r rs =>
          simp only [insertArm]
          exact congrArg (fun x => [x]) (ih _ v1 v2)

/-! ## Shape: insertion's effect on the value-erased tree -/

theorem shapeList_append (xs ys : List TreeNode) :
    shapeList (xs ++ ys) = shapeList xs ++ shapeList ys := by
  induction xs with
  | nil => rfl
  | cons x xs ih => simp [shapeList, ih]

theorem shapeList_replaceFirst (part : String) (g g' : TreeNode → TreeNode)
    (hg : ∀ c, shape (g c) = shape (g' c)) :
    ∀ cs : List TreeNode,
      shapeList (replaceFirst part g cs) = shapeList (replaceFirst part g' cs)
  | [] => rfl
  | c :: cs => by
    by_cases h : c.name = part
    · simp [replaceFirst, h, shapeList, hg]
    · simp [replaceFirst, h, shapeList, shapeList_replaceFirst part g g' hg cs]

/-- The shape of the tree after an insertion does not depend on the
inserted value. -/
theorem shape_insertNode_value (parts : List String) :
    ∀ (t : TreeNode) (v1 v2 : String),
      shape (insertNode t parts v1) = shape (insertNode t parts v2) := by
  induction parts with
  | nil =>
    intro t v1 v2
    simp [insertNode_nil]
  | cons part rest ih =>
    intro t v1 v2
    cases t with
    | mk i n v0 cs =>
      by_cases h : ∃ c ∈ cs, c.name = part
      · rw [insertNode_found i n v0 part cs rest v1 h,
          insertNode_found i n v0 part cs rest v2 h]
        simp only [shape]
        congr 1
        apply shapeList_replaceFirst
        intro c
        cases rest with
        | nil => rfl
        | cons r rs =>
          simp only [insertArm]
          exact ih c v1 v2
      · rw [insertNode_notFound i n v0 part cs rest v1 h,
          insertNode_notFound i n v0 part cs rest v2 h]
        simp only [shape, shapeList_append, shapeList]
        congr 2
        cases rest with
        | nil => rfl
        | cons r rs =>
          simp only [leafValue]
          exact congrArg (fun s => [s]) (ih _ v1 v2)

/-! ## String-level facts about ids -/

theorem mk_data (s : String) : String.mk s.data = s := rfl

theorem data_append3 (x s : String) :
    (x ++ "/" ++ s).data = x.data ++ '/' :: s.data := by
  rw [String.data_append, String.data_append]
  simp [show ("/" : String).data = ['/'] from rfl]

theorem cleanSeg_data_ne_nil {s : String} (h : cleanSeg s) : s.data ≠ [] := by
  intro hd
  exact h.1 (String.ext (by simp [hd]))

theorem trimTrailingSlash_of_clean (x s : String) (h : cleanSeg s) :
    trimTrailingSlash (x ++ "/" ++ s) = x ++ "/" ++ s := by
  unfold trimTrailingSlash
  rw [if_neg]
  intro hlast
  rw [data_append3] at hlast
  obtain ⟨c, hc⟩ := Option.isSome_iff_exists.mp
    (List.getLast?_isSome.mpr (cleanSeg_data_ne_nil h))
  have hc' : (x.data ++ '/' :: s.data).getLast? = some c := by
    rw [List.getLast?_append, List.getLast?_cons, hc]
    rfl
  rw [hc'] at hlast
  have : c ∈ s.data := List.mem_of_mem_getLast? (by rw [hc]; rfl)
  rw [Option.some_inj.mp hlast] at this
  exact h.2 this

theorem joinSegs_cons_of_ne (s : String) (r : List String) (hr : r ≠ []) :
    joinSegs (s :: r) = s ++ "/" ++ joinSegs r := by
  cases r with
  | nil => exact absurd rfl hr
  | cons a as => rfl

theorem joinSegs_concat (p : List String) (s : String) (hp : p ≠ []) :
    joinSegs (p ++ [s]) = joinSegs p ++ "/" ++ s := by
  induction p with
  | nil => exact absurd rfl hp
  | cons a p ih =>
    cases p with
    | nil => rfl
    | cons b q =>
      rw [List.cons_append, joinSegs_cons_of_ne a _ (by simp),
        ih (by simp), joinSegs_cons_of_ne a (b :: q) (by simp)]
      simp [String.append_assoc]

theorem idOf_concat (p : List String) (s : String) :
    idOf (p ++ [s]) = idOf p ++ "/" ++ s := by
  cases p with
  | nil =>
    show "/" ++ joinSegs [s] = "" ++ "/" ++ s
    apply String.ext
    simp [String.data_append, show joinSegs [s] = s from rfl,
      show ("" : String).data = [] from rfl]
  | cons a q =>
    show "/" ++ joinSegs ((a :: q) ++ [s]) = ("/" ++ joinSegs (a :: q)) ++ "/" ++ s
    rw [joinSegs_concat _ s (by simp)]
    simp [String.append_assoc]

/-- The id written on a freshly created child of a node at path `p`: for a
clean segment, the trailing-slash trim is a no-op and the id is exactly
`idOf` of the child path. -/
theorem childId_clean (p : List String) (s : String) (h : cleanSeg s) :
    trimTrailingSlash (idOf p ++ "/" ++ s) = idOf (p ++ [s]) := by
  rw [trimTrailingSlash_of_clean _ s h, idOf_concat]

theorem slash_cancel {a b : String} (h : "/" ++ a = "/" ++ b) : a = b := by
  apply String.ext
  have h2 := congrArg String.data h
  rw [String.data_append, String.data_append] at h2
  simpa [show ("/" : String).data = ['/'] from rfl] using h2

theorem split_at_slash :
    ∀ (l1 m1 l2 m2 : List Char), '/' ∉ l1 → '/' ∉ l2 →
      l1 ++ '/' :: m1 = l2 ++ '/' :: m2 → l1 = l2 ∧ m1 = m2 := by
  intro l1
  induction l1 with
  | nil =>
    intro m1 l2 m2 _ h2 heq
    cases l2 with
    | nil => simpa using heq
    | cons c l2' =>
      exfalso
      have hc : c = '/' := by
        have := congrArg (fun l => l.head?) heq
        simpa using this.symm
      exact h2 (hc ▸ List.mem_cons_self c l2')
  | cons c l1' ih =>
    intro m1 l2 m2 h1 h2 heq
    cases l2 with
    | nil =>
      exfalso
      have hc : c = '/' := by
        have := congrArg (fun l => l.head?) heq
        simpa using this
      exact h1 (hc ▸ List.mem_cons_self c l1')
    | cons d l2' =>
      have hhead : c = d := by
        have := congrArg (fun l => l.head?) heq
        simpa using this
      have htail : l1' ++ '/' :: m1 = l2' ++ '/' :: m2 := by
        have := congrArg List.tail heq
        simpa using this
      have h1' : '/' ∉ l1' := fun hm => h1 (List.mem_cons_of_mem c hm)
      have h2' : '/' ∉ l2' := fun hm => h2 (List.mem_cons_of_mem d hm)
      obtain ⟨he, hm⟩ := ih m1 l2' m2 h1' h2' htail
      exact ⟨by rw [hhead, he], hm⟩

theorem joinSegs_inj :
    ∀ (p q : List String), p ≠ [] → q ≠ [] → cleanSegs p → cleanSegs q →
      joinSegs p = joinSegs q → p = q := by
  intro p
  induction p with
  | nil => intro q hp; exact absurd rfl hp
  | cons s p' ih =>
    intro q _ hq hcp hcq heq
    cases q with
    | nil => exact absurd rfl hq
    | cons t q' =>
      cases p' with
      | nil =>
        cases q' with
        | nil =>
          have : s = t := heq
          rw [this]
        | cons t2 q2 =>
          exfalso
          rw [joinSegs_cons_of_ne t (t2 :: q2) (by simp)] at heq
          have hs : '/' ∉ s.data := (hcp s (by simp)).2
          have : '/' ∈ s.data := by
            rw [show joinSegs [s] = s from rfl] at heq
            rw [heq, data_append3]
            simp
          exact hs this
      | cons s2 p2 =>
        cases q' with
        | nil =>
          exfalso
          rw [joinSegs_cons_of_ne s (s2 :: p2) (by simp)] at heq
          have ht : '/' ∉ t.data := (hcq t (by simp)).2
          have : '/' ∈ t.data := by
            rw [show joinSegs [t] = t from rfl] at heq
            rw [← heq, data_append3]
            simp
          exact ht this
        | cons t2 q2 =>
          rw [joinSegs_cons_of_ne s (s2 :: p2) (by simp),
            joinSegs_cons_of_ne t (t2 :: q2) (by simp)] at heq
          have hdata := congrArg String.data heq
          rw [data_append3, data_append3] at hdata
          obtain ⟨hst, hrest⟩ := split_at_slash s.data _ t.data _
            (hcp s (by simp)).2 (hcq t (by simp)).2 hdata
          have h1 : s = t := String.ext hst
          have h2 : joinSegs (s2 :: p2) = joinSegs (t2 :: q2) := String.ext hrest
          have h3 := ih (t2 :: q2) (by simp) (by simp)
            (fun x hx => hcp x (List.mem_cons_of_mem s hx))
            (fun x hx => hcq x (List.mem_cons_of_mem t hx)) h2
          rw [h1, h3]

theorem idOf_inj {p q : List String} (hcp : cleanSegs p) (hcq : cleanSegs q)
    (h : idOf p = idOf q) : p = q := by
  cases p with
  | nil =>
    cases q with
    | nil => rfl
    | cons t q' =>
      exfalso
      have h2 := congrArg String.data h
      rw [show idOf [] = "" from rfl,
        show idOf (t :: q') = "/" ++ joinSegs (t :: q') from rfl,
        String.data_append] at h2
      simp [show ("" : String).data = [] from rfl,
        show ("/" : String).data = ['/'] from rfl] at h2
  | cons s p' =>
    cases q with
    | nil =>
      exfalso
      have h2 := congrArg String.data h
      rw [show idOf [] = "" from rfl,
        show idOf (s :: p') = "/" ++ joinSegs (s :: p') from rfl,
        String.data_append] at h2
      simp [show ("" : String).data = [] from rfl,
        show ("/" : String).data = ['/'] from rfl] at h2
    | cons t q' =>
      have h' : joinSegs (s :: p') = joinSegs (t :: q') := slash_cancel h
      exact joinSegs_inj (s :: p') (t :: q') (by simp) (by simp) hcp hcq h'

theorem cleanSegs_append {p q : List String} (hp : cleanSegs p) (hq : cleanSegs q) :
    cleanSegs (p ++ q) := by
  intro s hs
  rcases List.mem_append.mp hs with h | h
  · exact hp s h
  · exact hq s h

theorem cleanSegs_of_cons {s : String} {l : List String} (h : cleanSegs (s :: l)) :
    cleanSeg s ∧ cleanSegs l :=
  ⟨h s (by simp), fun x hx => h x (List.mem_cons_of_mem s hx)⟩

theorem idOf_ne {p q : List String} (hcp : cleanSegs p) (hcq : cleanSegs q)
    (h : p ≠ q) : idOf p ≠ idOf q :=
  fun he => h (idOf_inj hcp hcq he)

/-! ## Well-formedness is preserved by clean insertions -/

theorem replaceFirst_decomp (part : String) (g : TreeNode → TreeNode) :
    ∀ cs : List TreeNode, (∃ c ∈ cs, c.name = part) →
      ∃ cs1 c cs2, cs = cs1 ++ c :: cs2 ∧ c.name = part ∧
        (∀ x ∈ cs1, x.name ≠ part) ∧
        replaceFirst part g cs = cs1 ++ g c :: cs2 := by
  intro cs
  induction cs with
  | nil => rintro ⟨c, hc, _⟩; cases hc
  | cons c cs ih =>
    intro hex
    by_cases h : c.name = part
    · exact ⟨[], c, cs, rfl, h, by simp, by simp [replaceFirst, h]⟩
    · have hex' : ∃ x ∈ cs, x.name = part := by
        rcases hex with ⟨x, hx, hn⟩
        rcases List.mem_cons.mp hx with rfl | hm
        · exact absurd hn h
        · exact ⟨x, hm, hn⟩
      obtain ⟨cs1, x, cs2, hcs, hxn, hcs1, hrep⟩ := ih hex'
      refine ⟨c :: cs1, x, cs2, by rw [hcs]; rfl, hxn, ?_, ?_⟩
      · rintro y hy
        rcases List.mem_cons.mp hy with rfl | hy'
        · exact h
        · exact hcs1 y hy'
      · simp [replaceFirst, h, hrep]

theorem WF_id {p : List String} {t : TreeNode} (h : WF p t) : t.id = idOf p := by
  cases h with
  | mk p i n v cs hid _ _ _ => simpa using hid

theorem WF_inv {p : List String} {i n v : String} {cs : List TreeNode}
    (h : WF p (.mk i n v cs)) :
    i = idOf p ∧ (∀ c ∈ cs, cleanSeg c.name) ∧
      cs.Pairwise (fun a b => a.name ≠ b.name) ∧
      ∀ c ∈ cs, WF (p ++ [c.name]) c := by
  cases h with
  | mk p i n v cs h1 h2 h3 h4 => exact ⟨h1, h2, h3, h4⟩

theorem WF_value {p : List String} {i n v v' : String} {cs : List TreeNode}
    (h : WF p (.mk i n v cs)) : WF p (.mk i n v' cs) := by
  obtain ⟨h1, h2, h3, h4⟩ := WF_inv h
  exact WF.mk p i n v' cs h1 h2 h3 h4

theorem WF_insertNode (parts : List String) :
    ∀ (p : List String) (t : TreeNode) (v : String),
      WF p t → cleanSegs parts → WF p (insertNode t parts v) := by
  induction parts with
  | nil =>
    intro p t v h _
    simpa [insertNode_nil] using h
  | cons part rest ih =>
    intro p t v hwf hcl
    obtain ⟨hpart, hrest⟩ := cleanSegs_of_cons hcl
    cases t with
    | mk i n v0 cs =>
      obtain ⟨hid, hclean, hpair, hch⟩ := WF_inv hwf
      by_cases h : ∃ c ∈ cs, c.name = part
      · rw [insertNode_found i n v0 part cs rest v h]
        obtain ⟨cs1, c, cs2, hcs_eq, hcname, hcs1, hrep⟩ :=
          replaceFirst_decomp part (insertArm rest v) cs h
        rw [hrep]
        have harm_name : (insertArm rest v c).name = c.name := insertArm_name rest v c
        have hcmem : c ∈ cs := by rw [hcs_eq]; simp
        have hcwf : WF (p ++ [c.name]) c := hch c hcmem
        have harm_wf : WF (p ++ [(insertArm rest v c).name]) (insertArm rest v c) := by
          rw [harm_name]
          cases rest with
          | nil =>
            cases c with
            | mk ci cn cv cc => exact WF_value hcwf
          | cons r rs => exact ih _ c v hcwf hrest
        have hnames : (cs1 ++ insertArm rest v c :: cs2).map TreeNode.name
            = cs.map TreeNode.name := by
          rw [hcs_eq]
          simp [harm_name]
        refine WF.mk p i n v0 _ hid ?_ ?_ ?_
        · intro c' hc'
          rcases List.mem_append.mp hc' with h1 | h2
          · exact hclean c' (by rw [hcs_eq]; exact List.mem_append_left _ h1)
          · rcases List.mem_cons.mp h2 with rfl | h3
            · rw [harm_name]
              exact hclean c hcmem
            · exact hclean c' (by
                rw [hcs_eq]
                exact List.mem_append_right _ (List.mem_cons_of_mem _ h3))
        · have h1 : List.Pairwise (· ≠ ·) (cs.map TreeNode.name) :=
            List.pairwise_map.mpr hpair
          have h2 : List.Pairwise (· ≠ ·)
              ((cs1 ++ insertArm rest v c :: cs2).map TreeNode.name) := by
            rw [hnames]
            exact h1
          exact List.pairwise_map.mp h2
        · intro c' hc'
          rcases List.mem_append.mp hc' with h1 | h2
          · exact hch c' (by rw [hcs_eq]; exact List.mem_append_left _ h1)
          · rcases List.mem_cons.mp h2 with rfl | h3
            · exact harm_wf
            · exact hch c' (by
                rw [hcs_eq]
                exact List.mem_append_right _ (List.mem_cons_of_mem _ h3))
      · rw [insertNode_notFound i n v0 part cs rest v h]
        have hbase_id : trimTrailingSlash (i ++ "/" ++ part) = idOf (p ++ [part]) := by
          rw [hid]
          exact childId_clean p part hpart
        have hbase_wf : WF (p ++ [part])
            (.mk (trimTrailingSlash (i ++ "/" ++ part)) part (leafValue rest v) []) :=
          WF.mk _ _ _ _ _ hbase_id (by simp) (by simp) (by simp)
        have hN_wf : WF (p ++ [part]) (insertNode
            (.mk (trimTrailingSlash (i ++ "/" ++ part)) part (leafValue rest v) [])
            rest v) := ih _ _ v hbase_wf hrest
        have hN_name : (insertNode
            (.mk (trimTrailingSlash (i ++ "/" ++ part)) part (leafValue rest v) [])
            rest v).name = part := by
          rw [insertNode_name]
          rfl
        refine WF.mk p i n v0 _ hid ?_ ?_ ?_
        · intro c' hc'
          rcases List.mem_append.mp hc' with h1 | h2
          · exact hclean c' h1
          · rw [List.mem_singleton.mp h2, hN_name]
            exact hpart
        · rw [List.pairwise_append]
          refine ⟨hpair, by simp, ?_⟩
          intro a ha b hb
          rw [List.mem_singleton.mp hb, hN_name]
          exact fun he => h ⟨a, ha, he⟩
        · intro c' hc'
          rcases List.mem_append.mp hc' with h1 | h2
          · exact hch c' h1
          · rw [List.mem_singleton.mp h2, hN_name]
            exact hN_wf

theorem WF_rootNode : WF [] rootNode :=
  WF.mk [] "" "root" "" [] rfl (by simp) (by simp) (by simp)

theorem WF_foldl (l : List (List String × String)) :
    ∀ (p : List String) (t : TreeNode), WF p t → (∀ sv ∈ l, cleanSegs sv.1) →
      WF p (l.foldl (fun r sv => insertNode r sv.1 sv.2) t) := by
  induction l with
  | nil =>
    intro p t h _
    simpa using h
  | cons sv l ih =>
    intro p t h hl
    rw [List.foldl_cons]
    exact ih p _ (WF_insertNode sv.1 p t sv.2 h (hl sv (by simp)))
      (fun x hx => hl x (List.mem_cons_of_mem sv hx))

theorem WF_buildSegs (l : List (List String × String))
    (hl : ∀ sv ∈ l, cleanSegs sv.1) : WF [] (buildSegs l) :=
  WF_foldl l [] rootNode WF_rootNode hl

/-! ## Paths and ids of the nodes of a well-formed tree -/

theorem pathsIds_mk (p : List String) (i n v : String) (cs : List TreeNode) :
    pathsIds p (.mk i n v cs) = pathsIdsList p cs := rfl

theorem pathsIdsList_cons (p : List String) (c : TreeNode) (cs : List TreeNode) :
    pathsIdsList p (c :: cs)
      = (p ++ [c.name], c.id) :: (pathsIds (p ++ [c.name]) c ++ pathsIdsList p cs) := rfl

theorem mem_pathsIdsList (p : List String) (pr : List String × String) :
    ∀ cs : List TreeNode,
      (pr ∈ pathsIdsList p cs ↔
        ∃ c ∈ cs, pr = (p ++ [c.name], c.id) ∨ pr ∈ pathsIds (p ++ [c.name]) c) := by
  intro cs
  induction cs with
  | nil => simp [show pathsIdsList p [] = [] from rfl]
  | cons c cs ih =>
    rw [pathsIdsList_cons]
    simp only [List.mem_cons, List.mem_append, ih]
    constructor
    · rintro (h | h | ⟨c', hc', h⟩)
      · exact ⟨c, by simp, Or.inl h⟩
      · exact ⟨c, by simp, Or.inr h⟩
      · exact ⟨c', by simp [hc'], h⟩
    · rintro ⟨c', hc', h⟩
      rcases hc' with rfl | hc'
      · rcases h with h | h
        · exact Or.inl h
        · exact Or.inr (Or.inl h)
      · exact Or.inr (Or.inr ⟨c', hc', h⟩)

/-- Every `(path, id)` pair recorded below a well-formed node at path `p`
has the id the path dictates, and its path strictly extends `p` by a
non-empty clean suffix whose head is one of the node's children's names. -/
theorem WF_pathsIds_memb {p : List String} {t : TreeNode} (h : WF p t) :
    ∀ pr ∈ pathsIds p t,
      pr.2 = idOf pr.1 ∧ ∃ q, pr.1 = p ++ q ∧ q ≠ [] ∧ cleanSegs q ∧
        ∃ c ∈ t.children, q.head? = some c.name := by
  induction h with
  | mk p i n v cs hid hclean hpair hwf ih =>
    intro pr hpr
    rw [pathsIds_mk, mem_pathsIdsList] at hpr
    obtain ⟨c, hc, hor⟩ := hpr
    rcases hor with rfl | hm
    · refine ⟨by simpa using WF_id (hwf c hc), [c.name], rfl, by simp, ?_, ?_⟩
      · intro s hs
        rw [List.mem_singleton.mp hs]
        exact hclean c hc
      · exact ⟨c, by simpa using hc, rfl⟩
    · obtain ⟨h1, q', hq', hq'ne, hq'c, -⟩ := ih c hc pr hm
      refine ⟨h1, c.name :: q', by rw [hq']; simp, by simp, ?_, ?_⟩
      · intro s hs
        rcases List.mem_cons.mp hs with rfl | hs'
        · exact hclean c hc
        · exact hq'c s hs'
      · exact ⟨c, by simpa using hc, rfl⟩

theorem pathsIdsList_paths_nodup (p : List String) :
    ∀ cs : List TreeNode,
      (∀ c ∈ cs, cleanSeg c.name) →
      cs.Pairwise (fun a b => a.name ≠ b.name) →
      (∀ c ∈ cs, WF (p ++ [c.name]) c) →
      (∀ c ∈ cs, ((pathsIds (p ++ [c.name]) c).map (·.1)).Nodup) →
      ((pathsIdsList p cs).map (·.1)).Nodup := by
  intro cs
  induction cs with
  | nil => simp [show pathsIdsList p [] = [] from rfl]
  | cons c cs ih =>
    intro hclean hpair hwf hnod
    have hcwf := hwf c (by simp)
    have hpair' := List.pairwise_cons.mp hpair
    have hA : ∀ x ∈ (pathsIds (p ++ [c.name]) c).map (·.1),
        ∃ q, q ≠ [] ∧ x = p ++ c.name :: q := by
      intro x hx
      obtain ⟨pr, hpr, hpr1⟩ := List.mem_map.mp hx
      obtain ⟨-, q', hq', hq'ne, -, -⟩ := WF_pathsIds_memb hcwf pr hpr
      refine ⟨q', hq'ne, ?_⟩
      rw [← hpr1]
      show pr.1 = p ++ c.name :: q'
      rw [hq']
      simp
    have hB : ∀ x ∈ (pathsIdsList p cs).map (·.1),
        ∃ c' ∈ cs, ∃ q, x = p ++ c'.name :: q := by
      intro x hx
      obtain ⟨pr, hpr, hpr1⟩ := List.mem_map.mp hx
      rw [mem_pathsIdsList] at hpr
      obtain ⟨c', hc', hor⟩ := hpr
      rcases hor with rfl | hm
      · exact ⟨c', hc', [], by rw [← hpr1]⟩
      · obtain ⟨-, q', hq', -, -, -⟩ :=
          WF_pathsIds_memb (hwf c' (List.mem_cons_of_mem c hc')) pr hm
        refine ⟨c', hc', q', ?_⟩
        rw [← hpr1]
        show pr.1 = p ++ c'.name :: q'
        rw [hq']
        simp
    rw [pathsIdsList_cons]
    simp only [List.map_cons, List.map_append]
    rw [List.nodup_cons]
    constructor
    · intro hmem
      rcases List.mem_append.mp hmem with hA' | hB'
      · obtain ⟨q, hqne, hq⟩ := hA _ hA'
        have h2 : [c.name] = c.name :: q := List.append_cancel_left hq
        injection h2 with _ ht
        exact hqne ht.symm
      · obtain ⟨c', hc', q, hq⟩ := hB _ hB'
        have h2 : [c.name] = c'.name :: q := List.append_cancel_left hq
        injection h2 with hh _
        exact hpair'.1 c' hc' hh
    · rw [List.nodup_append]
      refine ⟨hnod c (by simp), ?_, ?_⟩
      · exact ih (fun c' hc' => hclean c' (List.mem_cons_of_mem c hc')) hpair'.2
          (fun c' hc' => hwf c' (List.mem_cons_of_mem c hc'))
          (fun c' hc' => hnod c' (List.mem_cons_of_mem c hc'))
      · intro x hxA hxB
        obtain ⟨q, hqne, hq⟩ := hA x hxA
        obtain ⟨c', hc', q2, hq2⟩ := hB x hxB
        have h2 : c.name :: q = c'.name :: q2 :=
          List.append_cancel_left (hq.symm.trans hq2)
        injection h2 with hh _
        exact hpair'.1 c' hc' hh

theorem WF_paths_nodup {p : List String} {t : TreeNode} (h : WF p t) :
    ((pathsIds p t).map (·.1)).Nodup := by
  induction h with
  | mk p i n v cs hid hclean hpair hwf ih =>
    rw [pathsIds_mk]
    exact pathsIdsList_paths_nodup p cs hclean hpair hwf ih

/-! ## Flattening a well-formed tree -/

theorem flatten_mk (i n v : String) (cs : List TreeNode) :
    flatten (.mk i n v cs)
      = (if v = "" then [] else [(i, v)]) ++ flattenList cs := rfl

theorem flattenList_cons (c : TreeNode) (cs : List TreeNode) :
    flattenList (c :: cs) = flatten c ++ flattenList cs := rfl

theorem flattenList_append (xs ys : List TreeNode) :
    flattenList (xs ++ ys) = flattenList xs ++ flattenList ys := by
  induction xs with
  | nil => rfl
  | cons x xs ih =>
    rw [List.cons_append, flattenList_cons, flattenList_cons, ih, List.append_assoc]

theorem mem_flatten_mk (x : String × String) (i n v : String) (cs : List TreeNode) :
    x ∈ flatten (.mk i n v cs) ↔ (v ≠ "" ∧ x = (i, v)) ∨ x ∈ flattenList cs := by
  rw [flatten_mk]
  by_cases hv : v = "" <;> simp [hv]

theorem mem_flattenList (x : String × String) :
    ∀ cs : List TreeNode, (x ∈ flattenList cs ↔ ∃ c ∈ cs, x ∈ flatten c) := by
  intro cs
  induction cs with
  | nil => simp [show flattenList [] = [] from rfl]
  | cons c cs ih =>
    rw [flattenList_cons]
    simp [ih]

/-- Every `(id, value)` pair in the flattening of a well-formed node at
path `p` carries the id of some clean extension of `p` (the empty
extension for the node's own pair). -/
theorem WF_flatten_mem {p : List String} {t : TreeNode} (h : WF p t) :
    ∀ x ∈ flatten t, ∃ ext, cleanSegs ext ∧ x.1 = idOf (p ++ ext) := by
  induction h with
  | mk p i n v cs hid hclean hpair hwf ih =>
    intro x hx
    rw [mem_flatten_mk] at hx
    rcases hx with ⟨hv, rfl⟩ | hx
    · refine ⟨[], ?_, ?_⟩
      · intro s hs
        cases hs
      · simpa using hid
    · rw [mem_flattenList] at hx
      obtain ⟨c, hc, hxc⟩ := hx
      obtain ⟨ext, hcext, hxid⟩ := ih c hc x hxc
      refine ⟨c.name :: ext, ?_, ?_⟩
      · intro s hs
        rcases List.mem_cons.mp hs with rfl | hs'
        · exact hclean c hc
        · exact hcext s hs'
      · rw [hxid]
        congr 1
        simp

/-- Pairs below a node at clean path `q` never carry the id of `q`
itself. -/
theorem flatten_children_id_ne {q : List String} {c : TreeNode}
    (h : WF q c) (hq : cleanSegs q) :
    ∀ x ∈ flattenList c.children, x.1 ≠ idOf q := by
  cases c with
  | mk ci cn cv cc =>
    obtain ⟨-, hclean, -, hch⟩ := WF_inv h
    intro x hx
    rw [show (TreeNode.mk ci cn cv cc).children = cc from rfl] at hx
    rw [mem_flattenList] at hx
    obtain ⟨ch, hchm, hxch⟩ := hx
    obtain ⟨ext, hcext, hxid⟩ := WF_flatten_mem (hch ch hchm) x hxch
    have hshape : (q ++ [ch.name]) ++ ext = q ++ ch.name :: ext := by simp
    rw [hxid, hshape]
    refine idOf_ne ?_ hq ?_
    · refine cleanSegs_append hq ?_
      intro s hs
      rcases List.mem_cons.mp hs with rfl | hs'
      · exact hclean ch hchm
      · exact hcext s hs'
    · intro he
      have h2 : ch.name :: ext = [] := List.self_eq_append_right.mp he.symm
      cases h2

/-- Pairs inside a list of well-formed children whose names all differ
from `part` never carry the id of any path of the form
`p ++ part :: rest`. -/
theorem flattenList_id_ne {p : List String} (part : String) (rest : List String)
    {cs : List TreeNode}
    (hw : ∀ c ∈ cs, WF (p ++ [c.name]) c)
    (hcn : ∀ c ∈ cs, cleanSeg c.name)
    (hne : ∀ c ∈ cs, c.name ≠ part)
    (hp : cleanSegs p) (hpart : cleanSeg part) (hrest : cleanSegs rest) :
    ∀ x ∈ flattenList cs, x.1 ≠ idOf (p ++ part :: rest) := by
  intro x hx
  rw [mem_flattenList] at hx
  obtain ⟨c, hc, hxc⟩ := hx
  obtain ⟨ext, hcext, hxid⟩ := WF_flatten_mem (hw c hc) x hxc
  rw [hxid]
  have hshape : (p ++ [c.name]) ++ ext = p ++ c.name :: ext := by simp
  rw [hshape]
  apply idOf_ne
  · refine cleanSegs_append hp ?_
    intro s hs
    rcases List.mem_cons.mp hs with rfl | hs'
    · exact hcn c hc
    · exact hcext s hs'
  · refine cleanSegs_append hp ?_
    intro s hs
    rcases List.mem_cons.mp hs with rfl | hs'
    · exact hpart
    · exact hrest s hs'
  · intro he
    have h2 : c.name :: ext = part :: rest := List.append_cancel_left he
    injection h2 with hh _
    exact hne c hc hh

/-- The node's own pair never carries the id of a strict extension of its
path. -/
theorem own_id_ne {p : List String} (part : String) (rest : List String)
    (hp : cleanSegs p) (hpart : cleanSeg part) (hrest : cleanSegs rest) :
    idOf p ≠ idOf (p ++ part :: rest) := by
  apply idOf_ne hp
  · refine cleanSegs_append hp ?_
    intro s hs
    rcases List.mem_cons.mp hs with rfl | hs'
    · exact hpart
    · exact hrest s hs'
  · intro he
    have h2 : part :: rest = [] := List.self_eq_append_right.mp he
    cases h2

theorem flattenList_nil : flattenList [] = [] := rfl

theorem case_found_nil {Own A1 NV B CV A2 NeT : Prop}
    (hOwn : Own → NeT) (hA1 : A1 → NeT) (hB : B → NeT) (hA2 : A2 → NeT)
    (hCV : CV → ¬ NeT) :
    (Own ∨ A1 ∨ (NV ∨ B) ∨ A2) ↔ (NV ∨ (Own ∨ A1 ∨ (CV ∨ B) ∨ A2) ∧ NeT) := by
  tauto

theorem case_found_cons {Own A1 NV C FN A2 NeT : Prop}
    (hFN : FN ↔ (NV ∨ (C ∧ NeT)))
    (hOwn : Own → NeT) (hA1 : A1 → NeT) (hA2 : A2 → NeT) :
    (Own ∨ A1 ∨ FN ∨ A2) ↔ (NV ∨ (Own ∨ A1 ∨ C ∨ A2) ∧ NeT) := by
  tauto

theorem case_notfound {Own Acs FN NV NeT : Prop}
    (hFN : FN ↔ NV) (hOwn : Own → NeT) (hAcs : Acs → NeT) :
    (Own ∨ Acs ∨ FN) ↔ (NV ∨ (Own ∨ Acs) ∧ NeT) := by
  tauto

/-- Effect of one clean insertion on the flattening of a well-formed
tree: the pair at the inserted path is (re-)written — present exactly when
the inserted value is non-empty — and every pair at any other id is
untouched. -/
theorem flatten_insertNode (segs : List String) :
    ∀ (p : List String) (t : TreeNode) (v : String),
      segs ≠ [] → cleanSegs segs → cleanSegs p → WF p t →
      ∀ x, x ∈ flatten (insertNode t segs v) ↔
        (v ≠ "" ∧ x = (idOf (p ++ segs), v)) ∨
        (x ∈ flatten t ∧ x.1 ≠ idOf (p ++ segs)) := by
  induction segs with
  | nil =>
    intro p t v hne
    exact absurd rfl hne
  | cons part rest ih =>
    intro p t v _ hcs hcp hwf x
    obtain ⟨hpart, hrest⟩ := cleanSegs_of_cons hcs
    cases t with
    | mk i n v0 cs =>
      obtain ⟨hid, hclean, hpair, hch⟩ := WF_inv hwf
      have hxT : ∀ w : String,
          x = (idOf (p ++ part :: rest), w) → x.1 = idOf (p ++ part :: rest) := by
        rintro w rfl
        rfl
      have hown : x = (i, v0) → x.1 ≠ idOf (p ++ part :: rest) := by
        rintro rfl
        show i ≠ _
        rw [hid]
        exact own_id_ne part rest hcp hpart hrest
      have hcppart : cleanSegs (p ++ [part]) := by
        refine cleanSegs_append hcp ?_
        intro s hs
        rw [List.mem_singleton.mp hs]
        exact hpart
      by_cases h : ∃ c ∈ cs, c.name = part
      · obtain ⟨cs1, c, cs2, hcs_eq, hcname, hcs1, hrep⟩ :=
          replaceFirst_decomp part (insertArm rest v) cs h
        have hpair2 : ∀ c2 ∈ cs2, c2.name ≠ part := by
          have hp2 := hpair
          rw [hcs_eq] at hp2
          have h3 := (List.pairwise_append.mp hp2).2.1
          have h4 := (List.pairwise_cons.mp h3).1
          intro c2 hc2 he
          exact h4 c2 hc2 (hcname.trans he.symm)
        have hmem1 : ∀ y ∈ cs1, y ∈ cs := fun y hy => by
          rw [hcs_eq]
          exact List.mem_append_left _ hy
        have hmem2 : ∀ y ∈ cs2, y ∈ cs := fun y hy => by
          rw [hcs_eq]
          exact List.mem_append_right _ (List.mem_cons_of_mem _ hy)
        have hcmem : c ∈ cs := by
          rw [hcs_eq]
          simp
        have hf2 : ∀ y ∈ flattenList cs1, y.1 ≠ idOf (p ++ part :: rest) :=
          flattenList_id_ne part rest (fun c' hc' => hch c' (hmem1 c' hc'))
            (fun c' hc' => hclean c' (hmem1 c' hc')) hcs1 hcp hpart hrest
        have hf3 : ∀ y ∈ flattenList cs2, y.1 ≠ idOf (p ++ part :: rest) :=
          flattenList_id_ne part rest (fun c' hc' => hch c' (hmem2 c' hc'))
            (fun c' hc' => hclean c' (hmem2 c' hc')) hpair2 hcp hpart hrest
        have hcwf : WF (p ++ [part]) c := by
          have h5 := hch c hcmem
          rwa [hcname] at h5
        rw [insertNode_found i n v0 part cs rest v h, hrep, hcs_eq]
        cases rest with
        | nil =>
          cases c with
          | mk ci cn cv cc =>
            have hcn : cn = part := by simpa using hcname
            subst hcn
            obtain ⟨hci, -, -, -⟩ := WF_inv hcwf
            have hf5 : ∀ y ∈ flattenList cc, y.1 ≠ idOf (p ++ [cn]) :=
              flatten_children_id_ne hcwf hcppart
            have hxcv := hxT cv
            have hf2x := hf2 x
            have hf3x := hf3 x
            have hf5x := hf5 x
            simp only [insertArm, TreeNode.id_mk, TreeNode.name_mk,
              TreeNode.children_mk, mem_flatten_mk, flattenList_append,
              flattenList_cons, List.mem_append, hci]
            exact case_found_nil (fun hx => hown hx.2) hf2x hf5x hf3x
              (fun hx hne => hne (hxcv hx.2))
        | cons r rs =>
          have hsh : (p ++ [part]) ++ r :: rs = p ++ part :: r :: rs := by simp
          have ihc := ih (p ++ [part]) c v (by simp) hrest hcppart hcwf x
          rw [hsh] at ihc
          have hf2x := hf2 x
          have hf3x := hf3 x
          simp only [insertArm, mem_flatten_mk, flattenList_append,
            flattenList_cons, List.mem_append]
          exact case_found_cons ihc (fun hx => hown hx.2) hf2x hf3x
      · rw [insertNode_notFound i n v0 part cs rest v h]
        have hbase_id : trimTrailingSlash (i ++ "/" ++ part) = idOf (p ++ [part]) := by
          rw [hid]
          exact childId_clean p part hpart
        have hf2 : ∀ y ∈ flattenList cs, y.1 ≠ idOf (p ++ part :: rest) :=
          flattenList_id_ne part rest hch hclean
            (fun c' hc' he => h ⟨c', hc', he⟩) hcp hpart hrest
        cases rest with
        | nil =>
          have hf2x := hf2 x
          simp only [insertNode_nil, leafValue, hbase_id, mem_flatten_mk,
            flattenList_append, flattenList_cons, flattenList_nil,
            List.mem_append, List.not_mem_nil, or_false, false_or]
          exact case_notfound Iff.rfl (fun hx => hown hx.2) hf2x
        | cons r rs =>
          have hsh : (p ++ [part]) ++ r :: rs = p ++ part :: r :: rs := by simp
          have hbase_wf : WF (p ++ [part])
              (.mk (trimTrailingSlash (i ++ "/" ++ part)) part (leafValue (r :: rs) v) []) :=
            WF.mk _ _ _ _ _ hbase_id (by simp) (by simp) (by simp)
          have ihN := ih (p ++ [part])
            (.mk (trimTrailingSlash (i ++ "/" ++ part)) part (leafValue (r :: rs) v) [])
            v (by simp) hrest hcppart hbase_wf x
          rw [hsh] at ihN
          have hfb : flatten
              (.mk (trimTrailingSlash (i ++ "/" ++ part)) part (leafValue (r :: rs) v) [])
              = [] := rfl
          rw [hfb] at ihN
          simp only [List.not_mem_nil, false_and, or_false] at ihN
          have hf2x := hf2 x
          simp only [mem_flatten_mk, flattenList_append, flattenList_cons,
            flattenList_nil, List.mem_append, List.not_mem_nil, or_false]
          exact case_notfound ihN (fun hx => hown hx.2) hf2x

theorem case_fold {A NV0 Bt NeT0 S FI : Prop}
    (hFI : FI ↔ (NV0 ∨ (Bt ∧ NeT0)))
    (hsur : NV0 → S) :
    (A ∨ (FI ∧ S)) ↔ ((NV0 ∨ A) ∨ (Bt ∧ (NeT0 ∧ S))) := by
  tauto

/-- Folding a sequence of clean insertions with pairwise-distinct segment
lists into a well-formed tree: each inserted path's pair is written
(when its value is non-empty), and a pre-existing pair survives exactly
when its id is hit by no insertion. -/
theorem flatten_foldl (l : List (List String × String)) :
    ∀ (p : List String) (t : TreeNode), cleanSegs p → WF p t →
      (∀ sv ∈ l, sv.1 ≠ [] ∧ cleanSegs sv.1) →
      (l.map (·.1)).Nodup →
      ∀ x, x ∈ flatten (l.foldl (fun r sv => insertNode r sv.1 sv.2) t) ↔
        ((∃ sv ∈ l, sv.2 ≠ "" ∧ x = (idOf (p ++ sv.1), sv.2)) ∨
          (x ∈ flatten t ∧ ∀ sv ∈ l, x.1 ≠ idOf (p ++ sv.1))) := by
  induction l with
  | nil =>
    intro p t _ _ _ _ x
    simp
  | cons sv l ihl =>
    intro p t hcp hwf hsv hnd x
    obtain ⟨hne0, hc0⟩ := hsv sv (by simp)
    have hsv' : ∀ sv' ∈ l, sv'.1 ≠ [] ∧ cleanSegs sv'.1 :=
      fun sv' h => hsv sv' (List.mem_cons_of_mem sv h)
    have hnd2 := List.nodup_cons.mp (show (sv.1 :: l.map (·.1)).Nodup from hnd)
    rw [List.foldl_cons]
    have hwf' : WF p (insertNode t sv.1 sv.2) :=
      WF_insertNode sv.1 p t sv.2 hwf hc0
    rw [ihl p _ hcp hwf' hsv' hnd2.2 x]
    have hins := flatten_insertNode sv.1 p t sv.2 hne0 hc0 hcp hwf x
    have hsur : (sv.2 ≠ "" ∧ x = (idOf (p ++ sv.1), sv.2)) →
        ∀ sv' ∈ l, x.1 ≠ idOf (p ++ sv'.1) := by
      rintro ⟨-, rfl⟩ sv' hsv2
      show idOf (p ++ sv.1) ≠ idOf (p ++ sv'.1)
      refine idOf_ne (cleanSegs_append hcp hc0)
        (cleanSegs_append hcp (hsv' sv' hsv2).2) ?_
      intro he
      have h3 : sv.1 = sv'.1 := List.append_cancel_left he
      exact hnd2.1 (h3 ▸ List.mem_map_of_mem (·.1) hsv2)
    simp only [List.forall_mem_cons, List.exists_mem_cons_iff]
    exact case_fold hins hsur

/-! ## Splitting a clean raw key recovers its segments -/

theorem splitSlashChars_ne_nil : ∀ l : List Char, splitSlashChars l ≠ [] := by
  intro l
  cases l with
  | nil => simp [splitSlashChars]
  | cons c cs =>
    cases h : splitSlashChars cs with
    | nil => by_cases hc : c = '/' <;> simp [splitSlashChars, h, hc]
    | cons a as => by_cases hc : c = '/' <;> simp [splitSlashChars, h, hc]

theorem splitSlashChars_cons_slash (m : List Char) :
    splitSlashChars ('/' :: m) = [] :: splitSlashChars m := by
  cases h : splitSlashChars m with
  | nil => exact absurd h (splitSlashChars_ne_nil m)
  | cons a as => simp [splitSlashChars, h]

theorem splitSlashChars_append_slash :
    ∀ (l m : List Char), '/' ∉ l →
      splitSlashChars (l ++ '/' :: m) = l :: splitSlashChars m := by
  intro l
  induction l with
  | nil =>
    intro m _
    rw [List.nil_append, splitSlashChars_cons_slash]
  | cons c cs ih =>
    intro m h
    have hc : c ≠ '/' := fun he => h (he ▸ List.mem_cons_self c cs)
    have hcs : '/' ∉ cs := fun hm => h (List.mem_cons_of_mem c hm)
    rw [List.cons_append]
    simp [splitSlashChars, ih m hcs, hc]

theorem splitSlashChars_no_slash :
    ∀ l : List Char, '/' ∉ l → splitSlashChars l = [l] := by
  intro l
  induction l with
  | nil =>
    intro _
    rfl
  | cons c cs ih =>
    intro h
    have hc : c ≠ '/' := fun he => h (he ▸ List.mem_cons_self c cs)
    have hcs : '/' ∉ cs := fun hm => h (List.mem_cons_of_mem c hm)
    simp [splitSlashChars, ih hcs, hc]

theorem splitSlashChars_joinSegs :
    ∀ segs : List String, segs ≠ [] → cleanSegs segs →
      (splitSlashChars (joinSegs segs).data).map String.mk = segs := by
  intro segs
  induction segs with
  | nil =>
    intro h
    exact absurd rfl h
  | cons s rest ih =>
    intro _ hc
    cases rest with
    | nil =>
      rw [show joinSegs [s] = s from rfl,
        splitSlashChars_no_slash s.data (hc s (by simp)).2]
      simp [mk_data]
    | cons s2 r2 =>
      rw [joinSegs_cons_of_ne s (s2 :: r2) (by simp), data_append3,
        splitSlashChars_append_slash _ _ (hc s (by simp)).2,
        List.map_cons, mk_data, ih (by simp) (cleanSegs_of_cons hc).2]

theorem splitKey_idOf (segs : List String) (hne : segs ≠ []) (hc : cleanSegs segs) :
    splitKey (idOf segs) = segs := by
  cases segs with
  | nil => exact absurd rfl hne
  | cons s rest =>
    show splitKey ("/" ++ joinSegs (s :: rest)) = s :: rest
    unfold splitKey splitSlash
    have hd : (("/" : String) ++ joinSegs (s :: rest)).data
        = '/' :: (joinSegs (s :: rest)).data := by
      rw [String.data_append]
      rfl
    rw [hd, splitSlashChars_cons_slash, List.map_cons, List.drop_one,
      List.tail_cons]
    exact splitSlashChars_joinSegs (s :: rest) (by simp) hc

/-! ## Claims -/

/-- C1, counterexample: inserting the single segment `a` into a fresh root
creates a child whose id is `"/a"`, not the claimed `"a"` — the
`TrimSuffix` in the source trims a trailing separator, never the leading
one, so the id of a child of the root keeps its leading `/`. -/
theorem C1_counterexample :
    (insertNode rootNode ["a"] "v").children.map TreeNode.id = ["/a"] ∧
      ("/a" : String) ≠ "a" :=
  ⟨rfl, by decide⟩

/-- C1, amended: for every sequence of insertions whose segments are all
non-empty and free of the separator (the spec's KeyPath domain), every
node created by the Tree Builder has an id equal to the segments of its
path from the root joined by `/` and PRECEDED by a leading `/` — the
leading separator is kept, not trimmed (only a trailing one would be). -/
theorem C1_ids_are_rooted_paths (l : List (List String × String))
    (hl : ∀ sv ∈ l, cleanSegs sv.1) :
    ∀ pr ∈ pathsIds [] (buildSegs l), pr.2 = "/" ++ joinSegs pr.1 := by
  intro pr hpr
  obtain ⟨h2, q, hq, hqne, -, -⟩ :=
    WF_pathsIds_memb (WF_buildSegs l hl) pr hpr
  rw [h2, hq]
  cases q with
  | nil => exact absurd rfl hqne
  | cons a as => rfl

/-- Witness for C1's amended theorem: in the tree built from the single
insertion `(["a", "b"], "v")`, the node at path `["a"]` carries id
`"/a"`. -/
theorem C1_witness :
    ((["a"], "/a") : List String × String).2
      = "/" ++ joinSegs ((["a"], "/a") : List String × String).1 :=
  C1_ids_are_rooted_paths [(["a", "b"], "v")] (by decide) (["a"], "/a") (by decide)

/-- C2, counterexample: for the input `"/"` the handler does NOT return the
malformed-request outcome and DOES contact the store — the emptiness check
runs before the leading separator is trimmed, so `"/"` passes validation
and the store is queried with the empty key. -/
theorem C2_counterexample :
    (FetchValueForKeyHandler (fun _ => .ok []) "/").1 ≠ .malformed ∧
      (FetchValueForKeyHandler (fun _ => .ok []) "/").2 = [""] :=
  ⟨by decide, rfl⟩

/-- C2, amended: the handler rejects exactly the raw key that is empty
BEFORE the optional leading separator is removed: input `""` yields the
malformed-request outcome with no store call, while input `"/"` passes
validation, is trimmed to the empty key, and the store is queried with
that empty key. -/
theorem C2_empty_check_precedes_trim (store : String → StoreResult) :
    FetchValueForKeyHandler store "" = (.malformed, []) ∧
      (FetchValueForKeyHandler store "/").2 = [""] := by
  refine ⟨rfl, ?_⟩
  unfold FetchValueForKeyHandler
  rw [if_neg (by decide : ¬ ("/" : String) = "")]
  cases hst : store (trimLeadingSlash "/") with
  | err =>
    simp [hst]
    rfl
  | ok kvs =>
    cases kvs with
    | nil =>
      simp [hst]
      rfl
    | cons kv rest =>
      simp [hst]
      rfl

/-- C3, counterexample: inserting `["a"]` and then `["a", ""]` (the
segment lists of raw keys `/a` and `/a/`) gives two distinct nodes that
both carry the id `"/a"` — the trailing-separator trim collapses the empty
segment's id onto its parent's, so ids are not unique for arbitrary
insertion sequences. -/
theorem C3_counterexample :
    ¬ (allIds (buildSegs [(["a"], "v1"), (["a", ""], "v2")])).Nodup := by
  have h : allIds (buildSegs [(["a"], "v1"), (["a", ""], "v2")]) = ["/a", "/a"] := rfl
  rw [h]
  decide

/-- C3, amended: for every sequence of insertions whose segments are all
non-empty and free of the separator (the spec's KeyPath domain), after the
build completes every node's id is distinct from every other node's id. -/
theorem C3_ids_unique (l : List (List String × String))
    (hl : ∀ sv ∈ l, cleanSegs sv.1) :
    (allIds (buildSegs l)).Nodup := by
  have hwf := WF_buildSegs l hl
  have hnd := WF_paths_nodup hwf
  have hmemb := WF_pathsIds_memb hwf
  show ((pathsIds [] (buildSegs l)).map (·.2)).Nodup
  have heq : (pathsIds [] (buildSegs l)).map (·.2)
      = ((pathsIds [] (buildSegs l)).map (·.1)).map idOf := by
    rw [List.map_map]
    exact List.map_congr_left (fun pr hpr => (hmemb pr hpr).1)
  rw [heq]
  refine List.Nodup.map_on ?_ hnd
  intro x hx y hy hxy
  obtain ⟨prx, hprx, hprx1⟩ := List.mem_map.mp hx
  obtain ⟨pry, hpry, hpry1⟩ := List.mem_map.mp hy
  obtain ⟨-, qx, hqx, -, hqxc, -⟩ := hmemb prx hprx
  obtain ⟨-, qy, hqy, -, hqyc, -⟩ := hmemb pry hpry
  have hcx : cleanSegs x := by
    rw [← hprx1, hqx]
    simpa using hqxc
  have hcy : cleanSegs y := by
    rw [← hpry1, hqy]
    simpa using hqyc
  exact idOf_inj hcx hcy hxy

/-- Witness for C3's amended theorem on a concrete clean build. -/
theorem C3_witness :
    (allIds (buildSegs [(["a"], "v"), (["a", "b"], "w"), (["c"], "u")])).Nodup :=
  C3_ids_unique [(["a"], "v"), (["a", "b"], "w"), (["c"], "u")] (by decide)

/-- C4, counterexample: for the input set `{("/", "v")}` the built tree's
only valued node has id `""` (key `/` splits into the single empty segment,
whose id is the trimmed `"/"`, i.e. the empty string), so flattening yields
`{("", "v")}`, not the input set. -/
theorem C4_counterexample :
    flatten (buildTree [("/", "v")]) = [("", "v")] ∧
      ("/", "v") ∉ flatten (buildTree [("/", "v")]) := by
  have h : flatten (buildTree [("/", "v")]) = [("", "v")] := rfl
  exact ⟨h, by rw [h]; decide⟩

/-- C4, amended: for every finite set of `(key, value)` pairs whose keys
consist of a leading `/` followed by one or more non-empty, separator-free
segments joined by `/` (the shape of the raw hierarchical store keys),
whose values are non-empty, and with no duplicate full keys, building the
tree and collecting the `(id, value)` pair of every node carrying a value
yields exactly the input set. -/
theorem C4_roundtrip (kvs : List (String × String))
    (hk : ∀ kv ∈ kvs, cleanKey kv.1) (hv : ∀ kv ∈ kvs, kv.2 ≠ "")
    (hnd : (kvs.map (·.1)).Nodup) :
    ∀ x, x ∈ flatten (buildTree kvs) ↔ x ∈ kvs := by
  have hkey : ∀ kv ∈ kvs, splitKey kv.1 ≠ [] ∧ cleanSegs (splitKey kv.1) ∧
      idOf (splitKey kv.1) = kv.1 := by
    intro kv hkv
    obtain ⟨segs, hne, hc, hkeq⟩ := hk kv hkv
    rw [hkeq, splitKey_idOf segs hne hc]
    exact ⟨hne, hc, rfl⟩
  have hbt : buildTree kvs = (kvs.map (fun kv => (splitKey kv.1, kv.2))).foldl
      (fun r sv => insertNode r sv.1 sv.2) rootNode :=
    (List.foldl_map (fun kv : String × String => (splitKey kv.1, kv.2))
      (fun r sv => insertNode r sv.1 sv.2) kvs rootNode).symm
  have e1 : (kvs.map (fun kv => (splitKey kv.1, kv.2))).map (·.1)
      = (kvs.map (·.1)).map splitKey := by
    rw [List.map_map, List.map_map]
    exact List.map_congr_left (fun a _ => rfl)
  have hndL : ((kvs.map (fun kv => (splitKey kv.1, kv.2))).map (·.1)).Nodup := by
    rw [e1]
    refine List.Nodup.map_on ?_ hnd
    intro k1 hk1 k2 hk2 heq
    obtain ⟨kv1, hkv1, rfl⟩ := List.mem_map.mp hk1
    obtain ⟨kv2, hkv2, rfl⟩ := List.mem_map.mp hk2
    rw [← (hkey kv1 hkv1).2.2, ← (hkey kv2 hkv2).2.2, heq]
  intro x
  have hru := flatten_foldl (kvs.map (fun kv => (splitKey kv.1, kv.2))) [] rootNode
    (fun s hs => absurd hs (List.not_mem_nil s)) WF_rootNode
    (by
      intro sv hsv
      obtain ⟨kv, hkv, rfl⟩ := List.mem_map.mp hsv
      exact ⟨(hkey kv hkv).1, (hkey kv hkv).2.1⟩)
    hndL x
  rw [hbt, hru]
  simp only [show flatten rootNode = [] from rfl, List.not_mem_nil, false_and,
    and_false, or_false, List.nil_append]
  constructor
  · rintro ⟨sv, hsv, -, rfl⟩
    obtain ⟨kv, hkv, rfl⟩ := List.mem_map.mp hsv
    rw [(hkey kv hkv).2.2]
    exact hkv
  · intro hx
    refine ⟨(splitKey x.1, x.2), List.mem_map_of_mem _ hx, hv x hx, ?_⟩
    rw [(hkey x hx).2.2]

/-- Witness for C4's amended theorem: a two-key store round-trips. -/
theorem C4_witness :
    ("/a", "v1") ∈ flatten (buildTree [("/a", "v1"), ("/a/b", "v2")]) :=
  (C4_roundtrip [("/a", "v1"), ("/a/b", "v2")]
    (by
      intro kv hkv
      simp only [List.mem_cons, List.not_mem_nil, or_false] at hkv
      rcases hkv with rfl | rfl
      · exact ⟨["a"], by decide, by decide, by decide⟩
      · exact ⟨["a", "b"], by decide, by decide, by decide⟩)
    (by decide) (by decide) ("/a", "v1")).mpr (by decide)

/-- C5: an insertion never reorders or removes a node's existing children
— the new child list's names are the old names with at most one appended
segment — and the concrete build from `["b", "a", "a/c"]` yields top-level
children `[b, a]` in insertion order, with `a` then owning child `c`. -/
theorem C5_children_append_only :
    (∀ (t : TreeNode) (parts : List String) (v : String),
      ∃ es, (insertNode t parts v).children.map TreeNode.name
        = t.children.map TreeNode.name ++ es) ∧
    (buildSegs [(["b"], "vb"), (["a"], "va"), (["a", "c"], "vc")]).children.map
        TreeNode.name = ["b", "a"] ∧
    (buildSegs [(["b"], "vb"), (["a"], "va"), (["a", "c"], "vc")]).children.map
        (fun c => c.children.map TreeNode.name) = [[], ["c"]] := by
  refine ⟨?_, rfl, rfl⟩
  intro t parts v
  cases t with
  | mk i n v0 cs =>
    cases parts with
    | nil => exact ⟨[], by simp [insertNode_nil]⟩
    | cons part rest =>
      by_cases h : ∃ c ∈ cs, c.name = part
      · refine ⟨[], ?_⟩
        rw [insertNode_found i n v0 part cs rest v h]
        simp [replaceFirst_map_name part _ (insertArm_name rest v)]
      · refine ⟨[part], ?_⟩
        rw [insertNode_notFound i n v0 part cs rest v h]
        simp [insertNode_name]

/-- C6: inserting `(["a"], "v1")` and then `(["a", "b"], "v2")` into a
fresh root produces (with no error — the builder is total) a node for the
prefix `a` that carries both the value `"v1"` and exactly one child, named
`b` and carrying value `"v2"`. -/
theorem C6_prefix_coexistence :
    (buildSegs [(["a"], "v1"), (["a", "b"], "v2")]).children
      = [.mk "/a" "a" "v1" [.mk "/a/b" "b" "v2" []]] := rfl

/-- C7: a second insertion along an identical segment list overwrites the
first insertion's value and changes nothing else — the combined result is
the tree the second insertion alone would have produced, and the
value-erased shape after the second insertion is unchanged. -/
theorem C7_overwrite_same_path (t : TreeNode) (parts : List String) (v1 v2 : String) :
    insertNode (insertNode t parts v1) parts v2 = insertNode t parts v2 ∧
      shape (insertNode (insertNode t parts v1) parts v2)
        = shape (insertNode t parts v1) := by
  refine ⟨insertNode_overwrite parts t v1 v2, ?_⟩
  rw [insertNode_overwrite parts t v1 v2]
  exact shape_insertNode_value parts t v2 v1

/-- C8: for every valid (non-empty) key, a store answer with zero entries
yields `notFound` — an outcome distinct from the store-error outcome and
from a successful empty-string value — and an answer with at least one
entry yields the first entry's value as success. -/
theorem C8_lookup_zero_and_first (store : String → StoreResult) (key : String)
    (hk : key ≠ "") :
    (store (trimLeadingSlash key) = .ok [] →
      (FetchValueForKeyHandler store key).1 = .notFound) ∧
    (∀ kv rest, store (trimLeadingSlash key) = .ok (kv :: rest) →
      (FetchValueForKeyHandler store key).1 = .ok kv.2) ∧
    LookupOutcome.notFound ≠ .storeError ∧ LookupOutcome.notFound ≠ .ok "" := by
  refine ⟨?_, ?_, by decide, by decide⟩
  · intro h
    unfold FetchValueForKeyHandler
    rw [if_neg hk]
    simp [h]
  · intro kv rest h
    unfold FetchValueForKeyHandler
    rw [if_neg hk]
    simp [h]

/-- Witness for C8 at the concrete key `"missing/key"` over an empty
store. -/
theorem C8_witness :
    (FetchValueForKeyHandler (fun _ => .ok []) "missing/key").1 = .notFound :=
  (C8_lookup_zero_and_first (fun _ => .ok []) "missing/key" (by decide)).1 rfl

/-- C9: when the store call succeeds with zero key-value entries, the
listing handler returns the empty sequence of top-level nodes as a
success, not an error. -/
theorem C9_empty_store_lists_empty :
    FetchKeysHandler (.ok []) = .ok [] := rfl

/-- C10: an insertion whose segment list is empty is a complete no-op: the
loop body never runs, the tree is returned unchanged and the value is
dropped (never attached to the root). -/
theorem C10_empty_segment_list_skipped (t : TreeNode) (v : String) :
    insertNode t [] v = t :=
  insertNode_nil t v

end EtcdGateway
